import Mathlib

/-!
Verification of the diagnostic-driven source patcher scripts of the
Servio repository.

The scripts (fix-unused-vars.py, fix-ts-errors.py, fix-all-refs.py,
fix-ts-errors-comprehensive.py, fix-all-property-access.py, fix-batch-7.py,
fix-batch-8.py, fix-massive-batch.py, fix-parentheses.py,
fix-all-supabase-patterns.py) all follow the same shape: parse diagnostics,
load a file, split it on newline characters, rewrite single lines with
Python `re.sub` or `str.replace`, join and write back.

The embedding below models file content as `List Char` and a file as the
list of its lines.  The regexes the scripts use are of three fixed shapes:
  1. a word-bounded literal token  rf'\b{var}\b'        (fix-unused-vars.py,
     fix-ts-errors.py), optionally with a (?!:) lookahead
     (fix-all-refs.py, fix-ts-errors-comprehensive.py);
  2. the property-access wrapper
     rf'\b([a-zA-Z_][a-zA-Z0-9_]*)\s*\.\s*{prop}\b'     (fix-all-property-access.py,
     fix-batch-8.py, fix-ts-property-access.py);
  3. a plain substring (Python str.replace)             (fix-batch-7.py,
     fix-massive-batch.py).
Because the interpolated token is always captured by `\w+` (word characters
only, no regex metacharacters), each of these regexes matches
deterministically: greedy character classes never backtrack, so `re.sub`
reduces to a left-to-right scan that at each position either fires the
(unique) match or copies one character.  The scanners below implement that
scan directly.  Word characters are modelled as ASCII `[A-Za-z0-9_]`
(the scripts run on ASCII TypeScript sources).  The scanners take a fuel
argument (an upper bound on the input length) so that they are structurally
recursive and evaluate by `decide`/`rfl`; the `...W` wrappers instantiate
the fuel with the input length.
-/

/-- ASCII word character, Python regex `\w` on ASCII input. -/
def isWordChar (c : Char) : Bool :=
  decide (( 'a' ≤ c ∧ c ≤ 'z') ∨ ( 'A' ≤ c ∧ c ≤ 'Z') ∨ ( '0' ≤ c ∧ c ≤ '9') ∨ c = '_')

/-- First character of the identifier class `[a-zA-Z_]` of the
property-access regex (no digits). -/
def identStart (c : Char) : Bool :=
  decide (( 'a' ≤ c ∧ c ≤ 'z') ∨ ( 'A' ≤ c ∧ c ≤ 'Z') ∨ c = '_')

/-- Python `\s` / `str.strip` whitespace, ASCII part. -/
def pySpace (c : Char) : Bool :=
  decide (c = ' ' ∨ c = '\t' ∨ c = '\n' ∨ c = '\r' ∨ c = '\x0b' ∨ c = '\x0c')

/-- Boolean list-prefix test (the interpolated tokens are literal, so a
regex match of the token is a plain prefix test). -/
def pfx : List Char → List Char → Bool
  | [], _ => true
  | _ :: _, [] => false
  | a :: as, b :: bs => if a = b then pfx as bs else false

/-- Wordness of the first character of a suffix; the end of the string
counts as a non-word position (as for Python `\b`). -/
def wordOfHead : List Char → Bool
  | [] => false
  | c :: _ => isWordChar c

/-- Wordness of the last character of a consumed chunk (`none` arises only
for an empty chunk, which in the matchers below stands for a consumed
non-word character). -/
def wordOfLast (l : List Char) : Bool :=
  match l.getLast? with
  | some c => isWordChar c
  | none => false

/-- Python `\b` at the position between a consumed chunk `v` and the
remaining suffix `r`: the wordness changes. -/
def bdryAfter (v r : List Char) : Bool :=
  wordOfLast v != wordOfHead r

/-- The `(?!:)` negative lookahead of fix-all-refs.py line 57 and
fix-ts-errors-comprehensive.py line 50: the next character is not a colon. -/
def colonOk : List Char → Bool
  | [] => true
  | c :: _ => if c = ':' then false else true

/-- Match of the regex `\b{v}\b` (with the `(?!:)` lookahead when
`noColon` is set) at the current position.  `pw` is the wordness of the
previous character (false at the start of the line).  Returns the suffix
after the consumed token.  The scripts interpolate a `\w+` capture, so `v`
is never empty; the `[]` case is unreachable there. -/
def matchTok (v : List Char) (noColon : Bool) (pw : Bool) (s : List Char) :
    Option (List Char) :=
  match v with
  | [] => none
  | v0 :: _ =>
    if (pw != isWordChar v0) && pfx v s
        && bdryAfter v (s.drop v.length)
        && (!noColon || colonOk (s.drop v.length)) then
      some (s.drop v.length)
    else none

/-- One step of `re.sub` for the token regexes, fuelled.  On a match the
replacement `new` is emitted and scanning resumes after the consumed token,
with `pw` set to the wordness of the token's last character (subsequent
matching in `re.sub` is relative to the original string). -/
def subScanF (v new : List Char) (nc : Bool) : Nat → Bool → List Char → List Char
  | 0, _, s => s
  | _ + 1, _, [] => []
  | f + 1, pw, c :: rest =>
    match matchTok v nc pw (c :: rest) with
    | some r => new ++ subScanF v new nc f (wordOfLast v) r
    | none => c :: subScanF v new nc f (isWordChar c) rest

/-- `re.sub` of `\b{v}\b` (resp. with `(?!:)`) replacing by `new`, on a
whole line, starting at a line boundary. -/
def subScanW (v new : List Char) (nc pw : Bool) (s : List Char) : List Char :=
  subScanF v new nc s.length pw s

/-- fix-unused-vars.py line 41: `re.sub(rf'\b{var}\b', f'_{var}', line)`. -/
def subUnused (v line : List Char) : List Char :=
  subScanW v ( '_' :: v) false false line

/-- fix-ts-errors.py line 48: `re.sub(rf'\b{old_var}\b', new_var, line)`. -/
def subRename (old new line : List Char) : List Char :=
  subScanW old new false false line

/-- fix-ts-errors-comprehensive.py line 50 and fix-all-refs.py line 57:
`re.sub(rf'\b{old_var}\b(?!:)', new_var, line)`. -/
def subRenameNC (old new line : List Char) : List Char :=
  subScanW old new true false line

/-- The replacement template `r'(\1 as any).'` between the captured
identifier and the property (fix-all-property-access.py line 42). -/
def asAnyDot : List Char := " as any).".toList

/-- Match of `\b([a-zA-Z_][a-zA-Z0-9_]*)\s*\.\s*{prop}\b` at the current
position: an identifier (maximal word run starting with `[a-zA-Z_]`),
optional whitespace, a dot, optional whitespace, the literal property, and
a trailing word boundary.  Returns the captured identifier and the suffix
after the match. -/
def wrapMatch (p : List Char) (pw : Bool) (s : List Char) :
    Option (List Char × List Char) :=
  match s with
  | [] => none
  | c :: rest =>
    if pw || !identStart c then none
    else
      match (rest.dropWhile isWordChar).dropWhile pySpace with
      | [] => none
      | c2 :: r3 =>
        if c2 = '.' then
          if pfx p (r3.dropWhile pySpace)
              && bdryAfter p ((r3.dropWhile pySpace).drop p.length) then
            some (c :: rest.takeWhile isWordChar,
              (r3.dropWhile pySpace).drop p.length)
          else none
        else none

/-- Fuelled scan of the property-access rewrite
(fix-all-property-access.py line 42, fix-batch-8.py line 42): each match
`id.p` is replaced by `(id as any).p`. -/
def wrapScanF (p : List Char) : Nat → Bool → List Char → List Char
  | 0, _, s => s
  | _ + 1, _, [] => []
  | f + 1, pw, c :: rest =>
    match wrapMatch p pw (c :: rest) with
    | some (id, r5) =>
      '(' :: (id ++ asAnyDot ++ p ++ wrapScanF p f (wordOfLast p) r5)
    | none => c :: wrapScanF p f (isWordChar c) rest

/-- The whole-line property-access rewrite of fix-all-property-access.py
line 42 (the same `re.sub` as fix-batch-8.py line 42 and the rewrite of
fix-ts-property-access.py line 43). -/
def wrapProp (p line : List Char) : List Char :=
  wrapScanF p line.length false line

/-- The property-access scan with its natural fuel, general in the
wordness of the left context; `wrapProp` is its `pw = false` instance. -/
def wrapScanW (p : List Char) (pw : Bool) (s : List Char) : List Char :=
  wrapScanF p s.length pw s

/-- Fuelled Python `str.replace` (all non-overlapping occurrences, left to
right) as used by fix-batch-7.py line 49 and fix-massive-batch.py line 61.
The scripts only call it with non-empty literal `old` strings. -/
def strReplaceF (old new : List Char) : Nat → List Char → List Char
  | 0, s => s
  | _ + 1, [] => []
  | f + 1, c :: rest =>
    if pfx old (c :: rest) && !old.isEmpty then
      new ++ strReplaceF old new f ((c :: rest).drop old.length)
    else c :: strReplaceF old new f rest

/-- Python `line.replace(old, new)`. -/
def strReplaceW (old new s : List Char) : List Char :=
  strReplaceF old new s.length s

/-- Python `content.split('\n')`. -/
def splitNl : List Char → List (List Char)
  | [] => [[]]
  | c :: rest =>
    if c = '\n' then [] :: splitNl rest
    else
      match splitNl rest with
      | [] => [[c]]
      | l :: ls => (c :: l) :: ls

/-- Python `'\n'.join(lines)`. -/
def joinNl : List (List Char) → List Char
  | [] => []
  | [l] => l
  | l :: ls => l ++ '\n' :: joinNl ls

/-- The bounds-checked single-line edit all the scripts share:
`idx = line_num - 1; if 0 <= idx < len(lines): lines[idx] = f(lines[idx])`
(line numbers are parsed from `\d+`, so over the natural numbers the bound
`0 <= line_num - 1` is `1 <= line_num`). -/
def editAt (lines : List (List Char)) (ln : Nat) (f : List Char → List Char) :
    List (List Char) :=
  if 1 ≤ ln ∧ ln - 1 < lines.length then
    lines.set (ln - 1) (f (lines.getD (ln - 1) []))
  else lines

/-- The per-file fix loop shared by the single-line token fixers: each
diagnostic carries a 1-based line number and a line transform, applied in
order with the bounds check of `editAt`. -/
def applyAtLines (lines : List (List Char))
    (ds : List (Nat × (List Char → List Char))) : List (List Char) :=
  ds.foldl (fun ls d => editAt ls d.1 d.2) lines

/-- The fix loop of fix-ts-errors.py lines 44-48: each issue is
`(line_num, old_var, new_var)` and rewrites only that line. -/
def applyTsIssues (lines : List (List Char))
    (issues : List (Nat × List Char × List Char)) : List (List Char) :=
  applyAtLines lines (issues.map fun t => (t.1, subRename t.2.1 t.2.2))

/-- One whole run of fix-ts-errors.py lines 34-55 on one file: skip a
missing file, split, apply the issues, join, and write back only when the
content changed, printing the `✅` line (modelled as appending the file's
path to the summary log) exactly when a write happens.  Returns the on-disk
content after the run together with the summary entries for this file. -/
def processTsFile (present : Bool) (path content : List Char)
    (issues : List (Nat × List Char × List Char)) :
    List Char × List (List Char) :=
  if present then
    let lines := splitNl content
    let lines2 := applyTsIssues lines issues
    let newC := joinNl lines2
    if newC ≠ content then (newC, [path]) else (content, [])
  else (content, [])

/-- The fix loop of fix-unused-vars.py lines 35-43 on one file that exists:
split, prefix the reported variables with an underscore on their reported
lines, join, and write back unconditionally.  Returns the on-disk content
after the run. -/
def processUnusedFile (content : List Char) (issues : List (Nat × List Char)) :
    List Char :=
  joinNl (applyAtLines (splitNl content)
    (issues.map fun d => (d.1, subUnused d.2)))

/-- The apply loop of fix-batch-7.py lines 46-49 (and, with an additional
`old in line` test that does not change the result, fix-massive-batch.py
lines 55-61): every collected change is applied in order with
`str.replace`, without any overlap or conflict check. -/
def applyReplaceChanges (lines : List (List Char))
    (changes : List (Nat × List Char × List Char)) : List (List Char) :=
  changes.foldl (fun ls c => editAt ls c.1 (strReplaceW c.2.1 c.2.2)) lines

/-- The guarded write of fix-ts-errors.py lines 50-52: `content` is the
text loaded at the start of the pass (line 40), `newC` the rewritten text,
`disk` whatever is on disk at commit time.  The script compares the new
text only against the loaded text and never re-reads the disk. -/
def commitTsWrite (content newC disk : List Char) : List Char :=
  if newC ≠ content then newC else disk

/-- Python `str.rstrip()` (trailing whitespace removed). -/
def pyRstrip (l : List Char) : List Char :=
  (l.reverse.dropWhile pySpace).reverse

/-- Python `str.strip()`. -/
def pyStrip (l : List Char) : List Char :=
  pyRstrip (l.dropWhile pySpace)

/-- The trigger of fix-parentheses.py line 32: `lines[j].strip().endswith(';')`. -/
def stripEndsSemi (l : List Char) : Bool :=
  match (pyStrip l).getLast? with
  | some c => c = ';'
  | none => false

/-- The edit of fix-parentheses.py line 33: `lines[j].rstrip()[:-1] + ');'`. -/
def closeParen (l : List Char) : List Char :=
  (pyRstrip l).dropLast ++ [')', ';']

/-- The bounded lookahead loop of fix-parentheses.py lines 29-37, fuelled:
scan indices `j` upward while `j < len(lines) and j < stop`; at the first
line whose stripped text ends with a semicolon, rewrite that line and stop;
if none is found in the window, change nothing. -/
def scanWinF (pred : List Char → Bool) (ed : List Char → List Char) :
    Nat → List (List Char) → Nat → Nat → List (List Char)
  | 0, lines, _, _ => lines
  | f + 1, lines, j, stop =>
    if j < lines.length ∧ j < stop then
      if pred (lines.getD j []) then lines.set j (ed (lines.getD j []))
      else scanWinF pred ed f lines (j + 1) stop
    else lines

/-- The window scan with its natural fuel. -/
def scanWindow (pred : List Char → Bool) (ed : List Char → List Char)
    (lines : List (List Char)) (j stop : Nat) : List (List Char) :=
  scanWinF pred ed (stop - j) lines j stop

/-- The lookahead of fix-parentheses.py lines 27-37 for a trigger at index
`i`: `j = i + 1; while j < len(lines) and j < i + 20: ...`. -/
def fixParenLookahead (lines : List (List Char)) (i : Nat) : List (List Char) :=
  scanWindow stripEndsSemi closeParen lines (i + 1) (i + 20)

/-- The line shape `(x as any).p` produced by one firing of the
property-access rewrite. -/
def wrappedLine (x p : List Char) : List Char :=
  '(' :: (x ++ (asAnyDot ++ p))

/-! Concrete inputs used by the example-scenario and counterexample
theorems. -/

def c1Prop : List Char := "name".toList

def c1Line : List Char := "  console.log(user.name);".toList

def c1Fixed : List Char := "  console.log((user as any).name);".toList

def c2Line : List Char := "a.name.name".toList

def c5Line : List Char := "logger._error(error)".toList

def c5Change1 : Nat × List Char × List Char :=
  (1, "logger._error".toList, "logger.error".toList)

def c5Change2 : Nat × List Char × List Char :=
  (1, "error".toList, "_error".toList)

def c6Loaded : List Char := "const a = 1".toList

def c6New : List Char := "const _a = 1".toList

def c6Disk : List Char := "// rewritten externally".toList

def c7Path : List Char := "app/api/x.ts".toList

def c7Content : List Char := "line one\nline two".toList

/-! Basic list lemmas. -/

theorem set_getD_ne {α : Type} (l : List α) (i k : Nat) (x : α) (d : α)
    (h : i ≠ k) : (l.set i x).getD k d = l.getD k d := by
  induction l generalizing i k with
  | nil => rfl
  | cons a t ih =>
    cases i with
    | zero =>
      cases k with
      | zero => exact absurd rfl h
      | succ k => simp [List.set, List.getD]
    | succ i =>
      cases k with
      | zero => simp [List.set, List.getD]
      | succ k =>
        simp only [List.set, List.getD_cons_succ]
        exact ih i k (fun hh => h (by rw [hh]))

theorem getD_set_self {α : Type} (l : List α) (i : Nat) (x : α) (d : α)
    (h : i < l.length) : (l.set i x).getD i d = x := by
  induction l generalizing i with
  | nil => simp at h
  | cons a t ih =>
    cases i with
    | zero => rfl
    | succ i =>
      simp only [List.set, List.getD_cons_succ]
      exact ih i (by simpa using h)

theorem set_getD_self {α : Type} (l : List α) (i : Nat) (d : α)
    (h : i < l.length) : l.set i (l.getD i d) = l := by
  induction l generalizing i with
  | nil => rfl
  | cons a t ih =>
    cases i with
    | zero => rfl
    | succ i =>
      simp only [List.set, List.getD_cons_succ, List.cons.injEq, true_and]
      exact ih i (by simpa using h)

theorem drop_pred_cons (l : List Char) (hl : l ≠ []) (X : List Char) :
    ∃ d, d ∈ l ∧ (l ++ X).drop (l.length - 1) = d :: X := by
  induction l with
  | nil => exact absurd rfl hl
  | cons a t ih =>
    cases t with
    | nil => exact ⟨a, List.mem_singleton.mpr rfl, rfl⟩
    | cons b u =>
      obtain ⟨d, hd, he⟩ := ih (by simp)
      exact ⟨d, List.mem_cons_of_mem a hd, by simpa using he⟩

/-! Lemmas about `pfx`. -/

theorem pfx_nil_right (a : List Char) (h : a ≠ []) : pfx a [] = false := by
  cases a with
  | nil => exact absurd rfl h
  | cons x xs => rfl

theorem pfx_cons {a0 : Char} {a : List Char} {b0 : Char} {b : List Char}
    (h : pfx (a0 :: a) (b0 :: b) = true) : a0 = b0 ∧ pfx a b = true := by
  by_cases hc : a0 = b0
  · exact ⟨hc, by simpa [pfx, hc] using h⟩
  · simp [pfx, hc] at h

theorem pfx_length {a b : List Char} (h : pfx a b = true) : a.length ≤ b.length := by
  induction a generalizing b with
  | nil => simp
  | cons x xs ih =>
    cases b with
    | nil => simp [pfx] at h
    | cons y ys =>
      obtain ⟨-, h2⟩ := pfx_cons h
      simpa using ih h2

theorem pfx_append_self (a r : List Char) : pfx a (a ++ r) = true := by
  induction a with
  | nil => rfl
  | cons x xs ih => simpa [pfx] using ih

theorem pfx_refl (a : List Char) : pfx a a = true := by
  have := pfx_append_self a []
  simpa using this

theorem pfx_eq_of_length {a b : List Char} (h : pfx a b = true)
    (hl : a.length = b.length) : a = b := by
  induction a generalizing b with
  | nil => cases b with
    | nil => rfl
    | cons y ys => simp at hl
  | cons x xs ih =>
    cases b with
    | nil => simp at hl
    | cons y ys =>
      obtain ⟨h1, h2⟩ := pfx_cons h
      simp only [List.length_cons, Nat.succ.injEq] at hl
      rw [h1, ih h2 hl]

theorem pfx_or_of_append {v u t : List Char} (h : pfx v (u ++ t) = true) :
    pfx v u = true ∨ pfx u v = true := by
  induction u generalizing v with
  | nil => exact Or.inr rfl
  | cons a u' ih =>
    cases v with
    | nil => exact Or.inl rfl
    | cons b v' =>
      obtain ⟨h1, h2⟩ := pfx_cons h
      rcases ih h2 with h3 | h3
      · exact Or.inl (by simp [pfx, h1, h3])
      · exact Or.inr (by simp [pfx, h1.symm, h3])

theorem pfx_drop_of_append {v u t : List Char} (h : pfx v (u ++ t) = true)
    (h2 : pfx u v = true) : pfx (v.drop u.length) t = true := by
  induction u generalizing v with
  | nil => simpa using h
  | cons a u' ih =>
    cases v with
    | nil => simp [pfx] at h2
    | cons b v' =>
      obtain ⟨-, hv⟩ := pfx_cons h
      obtain ⟨-, hu⟩ := pfx_cons h2
      simpa using ih hv hu

/-! The split/join round trip: Python's `'\n'.join(content.split('\n'))`
is the identity, so a run whose per-line edits all report no change writes
back the exact loaded content. -/

theorem splitNl_ne_nil (s : List Char) : splitNl s ≠ [] := by
  cases s with
  | nil => simp [splitNl]
  | cons c rest =>
    by_cases h : c = '\n'
    · simp [splitNl, h]
    · simp only [splitNl, if_neg h]
      cases splitNl rest with
      | nil => simp
      | cons l ls => simp

theorem joinNl_splitNl (s : List Char) : joinNl (splitNl s) = s := by
  induction s with
  | nil => rfl
  | cons c rest ih =>
    by_cases h : c = '\n'
    · subst h
      simp only [splitNl, if_pos rfl]
      rcases hs : splitNl rest with _ | ⟨l, ls⟩
      · exact absurd hs (splitNl_ne_nil rest)
      · rw [hs] at ih
        simpa [joinNl] using ih
    · simp only [splitNl, if_neg h]
      rcases hs : splitNl rest with _ | ⟨l, ls⟩
      · exact absurd hs (splitNl_ne_nil rest)
      · rw [hs] at ih
        cases ls with
        | nil => simpa [joinNl] using ih
        | cons l2 ls2 => simpa [joinNl] using ih

/-! Fuel adequacy and single-step unfolding for the scanners. -/

theorem dwLen (P : Char → Bool) (l : List Char) :
    (l.dropWhile P).length ≤ l.length := by
  induction l with
  | nil => simp
  | cons c t ih =>
    by_cases h : P c
    · simp only [List.dropWhile, h]
      exact le_trans ih (by simp)
    · simp [List.dropWhile, h]

theorem matchTok_nil (v : List Char) (nc pw : Bool) :
    matchTok v nc pw [] = none := by
  cases v with
  | nil => rfl
  | cons v0 v' => simp [matchTok, pfx_nil_right (v0 :: v') (by simp)]

theorem matchTok_some {v : List Char} {nc pw : Bool} {s r : List Char}
    (h : matchTok v nc pw s = some r) :
    v ≠ [] ∧ pfx v s = true ∧ r = s.drop v.length := by
  cases v with
  | nil => simp [matchTok] at h
  | cons v0 v' =>
    simp only [matchTok] at h
    split at h
    next hcond =>
      refine ⟨by simp, ?_, (Option.some.inj h).symm⟩
      cases hpf : pfx (v0 :: v') s
      · rw [hpf] at hcond; simp at hcond
      · rfl
    next => exact absurd h (by simp)

theorem matchTok_some_lt {v : List Char} {nc pw : Bool} {s r : List Char}
    (h : matchTok v nc pw s = some r) : r.length < s.length := by
  obtain ⟨hne, hp, hr⟩ := matchTok_some h
  have hlen : v.length ≤ s.length := pfx_length hp
  have hv : 1 ≤ v.length := by
    cases v with
    | nil => exact absurd rfl hne
    | cons a b => simp
  rw [hr, List.length_drop]
  omega

theorem subScanF_fuel (v new : List Char) (nc : Bool) :
    ∀ f1 f2 pw (s : List Char), s.length ≤ f1 → s.length ≤ f2 →
      subScanF v new nc f1 pw s = subScanF v new nc f2 pw s := by
  intro f1
  induction f1 with
  | zero =>
    intro f2 pw s h1 _
    have : s = [] := List.eq_nil_of_length_eq_zero (Nat.le_zero.mp h1)
    subst this
    cases f2 <;> rfl
  | succ f ih =>
    intro f2 pw s h1 h2
    cases s with
    | nil => cases f2 <;> rfl
    | cons c rest =>
      cases f2 with
      | zero => simp at h2
      | succ g =>
        cases hm : matchTok v nc pw (c :: rest) with
        | some r =>
          have hr := matchTok_some_lt hm
          simp only [List.length_cons] at h1 h2 hr
          simp only [subScanF, hm]
          rw [ih g (wordOfLast v) r (by omega) (by omega)]
        | none =>
          simp only [List.length_cons] at h1 h2
          simp only [subScanF, hm]
          rw [ih g (isWordChar c) rest (by omega) (by omega)]

theorem subScanW_nil (v new : List Char) (nc pw : Bool) :
    subScanW v new nc pw [] = [] := rfl

theorem subScanW_none {v new : List Char} {nc pw : Bool} {c : Char}
    {rest : List Char} (h : matchTok v nc pw (c :: rest) = none) :
    subScanW v new nc pw (c :: rest) = c :: subScanW v new nc (isWordChar c) rest := by
  show subScanF v new nc (rest.length + 1) pw (c :: rest) = _
  simp only [subScanF, h]
  rfl

theorem subScanW_some {v new : List Char} {nc pw : Bool} {s r : List Char}
    (h : matchTok v nc pw s = some r) :
    subScanW v new nc pw s = new ++ subScanW v new nc (wordOfLast v) r := by
  cases s with
  | nil => rw [matchTok_nil] at h; exact absurd h (by simp)
  | cons c rest =>
    have hr := matchTok_some_lt h
    simp only [List.length_cons] at hr
    show subScanF v new nc (rest.length + 1) pw (c :: rest) = _
    simp only [subScanF, h]
    rw [subScanF_fuel v new nc rest.length r.length (wordOfLast v) r
      (by omega) (by omega)]
    rfl

theorem wrapMatch_nil (p : List Char) (pw : Bool) : wrapMatch p pw [] = none := rfl

theorem wrapMatch_some {p : List Char} {pw : Bool} {c : Char}
    {rest id r5 : List Char} (h : wrapMatch p pw (c :: rest) = some (id, r5)) :
    pw = false ∧ identStart c = true ∧ id = c :: rest.takeWhile isWordChar ∧
      ∃ r3, (rest.dropWhile isWordChar).dropWhile pySpace = '.' :: r3 ∧
        pfx p (r3.dropWhile pySpace) = true ∧
        r5 = (r3.dropWhile pySpace).drop p.length ∧
        bdryAfter p r5 = true := by
  simp only [wrapMatch] at h
  split at h
  next hcond => exact absurd h (by simp)
  next hcond =>
    have hpw : pw = false := by
      cases hb : pw
      · rfl
      · rw [hb] at hcond; simp at hcond
    have hid : identStart c = true := by
      cases hb : identStart c
      · rw [hb] at hcond; simp at hcond
      · rfl
    split at h
    next => exact absurd h (by simp)
    next c2 r3 heq =>
      split at h
      next hdot =>
        subst hdot
        split at h
        next hb =>
          obtain ⟨hb1, hb2⟩ : pfx p (r3.dropWhile pySpace) = true ∧
              bdryAfter p ((r3.dropWhile pySpace).drop p.length) = true := by
            cases hx : pfx p (r3.dropWhile pySpace)
            · rw [hx] at hb; simp at hb
            · cases hy : bdryAfter p ((r3.dropWhile pySpace).drop p.length)
              · rw [hy] at hb; simp at hb
              · exact ⟨rfl, rfl⟩
          have hinj := Option.some.inj h
          have hid2 : id = c :: rest.takeWhile isWordChar := (Prod.mk.injEq _ _ _ _ ▸ hinj).1.symm
          have hr5 : r5 = (r3.dropWhile pySpace).drop p.length := (Prod.mk.injEq _ _ _ _ ▸ hinj).2.symm
          exact ⟨hpw, hid, hid2, r3, heq, hb1, hr5, hr5 ▸ hb2⟩
        next => exact absurd h (by simp)
      next => exact absurd h (by simp)

theorem wrapMatch_some_lt {p : List Char} {pw : Bool} {s id r5 : List Char}
    (h : wrapMatch p pw s = some (id, r5)) : r5.length < s.length := by
  cases s with
  | nil => simp [wrapMatch] at h
  | cons c rest =>
    obtain ⟨-, -, -, r3, heq, -, hr5, -⟩ := wrapMatch_some h
    have h1 : ((rest.dropWhile isWordChar).dropWhile pySpace).length ≤ rest.length :=
      le_trans (dwLen _ _) (dwLen _ _)
    rw [heq] at h1
    simp only [List.length_cons] at h1
    have h2 : r5.length ≤ r3.length := by
      rw [hr5, List.length_drop]
      exact le_trans (Nat.sub_le _ _) (dwLen _ _)
    simp only [List.length_cons]
    omega

theorem wrapScanF_fuel (p : List Char) :
    ∀ f1 f2 pw (s : List Char), s.length ≤ f1 → s.length ≤ f2 →
      wrapScanF p f1 pw s = wrapScanF p f2 pw s := by
  intro f1
  induction f1 with
  | zero =>
    intro f2 pw s h1 _
    have : s = [] := List.eq_nil_of_length_eq_zero (Nat.le_zero.mp h1)
    subst this
    cases f2 <;> rfl
  | succ f ih =>
    intro f2 pw s h1 h2
    cases s with
    | nil => cases f2 <;> rfl
    | cons c rest =>
      cases f2 with
      | zero => simp at h2
      | succ g =>
        cases hm : wrapMatch p pw (c :: rest) with
        | some pr =>
          obtain ⟨id, r5⟩ := pr
          have hr := wrapMatch_some_lt hm
          simp only [List.length_cons] at h1 h2 hr
          simp only [wrapScanF, hm]
          rw [ih g (wordOfLast p) r5 (by omega) (by omega)]
        | none =>
          simp only [List.length_cons] at h1 h2
          simp only [wrapScanF, hm]
          rw [ih g (isWordChar c) rest (by omega) (by omega)]

theorem wrapScanF_nil (p : List Char) (pw : Bool) : wrapScanF p 0 pw [] = [] := rfl

theorem wrapW_none {p : List Char} {pw : Bool} {c : Char} {rest : List Char}
    (h : wrapMatch p pw (c :: rest) = none) :
    wrapScanF p (c :: rest).length pw (c :: rest) =
      c :: wrapScanF p rest.length (isWordChar c) rest := by
  show wrapScanF p (rest.length + 1) pw (c :: rest) = _
  simp only [wrapScanF, h]

theorem wrapW_some {p : List Char} {pw : Bool} {s id r5 : List Char}
    (h : wrapMatch p pw s = some (id, r5)) :
    wrapScanF p s.length pw s =
      '(' :: (id ++ asAnyDot ++ p ++ wrapScanF p r5.length (wordOfLast p) r5) := by
  cases s with
  | nil => rw [wrapMatch_nil] at h; exact absurd h (by simp)
  | cons c rest =>
    have hr := wrapMatch_some_lt h
    simp only [List.length_cons] at hr
    show wrapScanF p (rest.length + 1) pw (c :: rest) = _
    simp only [wrapScanF, h]
    rw [wrapScanF_fuel p rest.length r5.length (wordOfLast p) r5
      (by omega) (by omega)]

/-! Lemmas about the bounds-checked per-line edit and the per-file loops. -/

theorem editAt_length (lines : List (List Char)) (ln : Nat)
    (f : List Char → List Char) : (editAt lines ln f).length = lines.length := by
  unfold editAt
  split
  · exact List.length_set lines _ _
  · rfl

theorem editAt_getD_ne (lines : List (List Char)) (ln : Nat)
    (f : List Char → List Char) (k : Nat) (h : ln ≠ k + 1) :
    (editAt lines ln f).getD k [] = lines.getD k [] := by
  unfold editAt
  split
  next hc => exact set_getD_ne lines (ln - 1) k _ [] (by omega)
  · rfl

theorem editAt_oob (lines : List (List Char)) (ln : Nat)
    (f : List Char → List Char) (h : ln = 0 ∨ lines.length < ln) :
    editAt lines ln f = lines := by
  unfold editAt
  rw [if_neg]
  omega

theorem editAt_noop (lines : List (List Char)) (ln : Nat)
    (f : List Char → List Char)
    (h : f (lines.getD (ln - 1) []) = lines.getD (ln - 1) []) :
    editAt lines ln f = lines := by
  unfold editAt
  split
  next hc => rw [h]; exact set_getD_self lines (ln - 1) [] hc.2
  · rfl

theorem applyAtLines_length (ds : List (Nat × (List Char → List Char))) :
    ∀ lines, (applyAtLines lines ds).length = lines.length := by
  induction ds with
  | nil => intro lines; rfl
  | cons d ds ih =>
    intro lines
    show (applyAtLines (editAt lines d.1 d.2) ds).length = _
    rw [ih, editAt_length]

theorem applyAtLines_getD_ne (ds : List (Nat × (List Char → List Char)))
    (k : Nat) : ∀ lines, (∀ d ∈ ds, d.1 ≠ k + 1) →
      (applyAtLines lines ds).getD k [] = lines.getD k [] := by
  induction ds with
  | nil => intro lines _; rfl
  | cons d ds ih =>
    intro lines h
    show (applyAtLines (editAt lines d.1 d.2) ds).getD k [] = _
    rw [ih _ (fun e he => h e (List.mem_cons_of_mem d he)),
      editAt_getD_ne _ _ _ _ (h d (List.mem_cons_self d ds))]

theorem applyAtLines_oob (ds : List (Nat × (List Char → List Char))) :
    ∀ lines, (∀ d ∈ ds, d.1 = 0 ∨ lines.length < d.1) →
      applyAtLines lines ds = lines := by
  induction ds with
  | nil => intro lines _; rfl
  | cons d ds ih =>
    intro lines h
    show applyAtLines (editAt lines d.1 d.2) ds = _
    rw [editAt_oob _ _ _ (h d (List.mem_cons_self d ds))]
    exact ih _ (fun e he => h e (List.mem_cons_of_mem d he))

theorem set_set_same {α : Type} (l : List α) (i : Nat) (a b : α) :
    (l.set i a).set i b = l.set i b := by
  induction l generalizing i with
  | nil => rfl
  | cons x t ih =>
    cases i with
    | zero => rfl
    | succ i => simp only [List.set]; rw [ih]

/-- C9 helper: the shape of the fix loop of fix-ts-errors.py lines 44-48
as an `applyAtLines` instance. -/
theorem applyTsIssues_def (lines : List (List Char))
    (issues : List (Nat × List Char × List Char)) :
    applyTsIssues lines issues =
      applyAtLines lines (issues.map fun t => (t.1, subRename t.2.1 t.2.2)) := rfl

/-- C1: for the property-access (escape-insertion) rule, the diagnostic
`Property 'name' does not exist` against the line
`  console.log(user.name);` rewrites it to
`  console.log((user as any).name);` (so `new_line != line`, the
`changed` test of fix-all-property-access.py line 43, is true), and
re-running the same transform on the new line returns it unchanged
(`changed` is false). -/
theorem c1_property_access_example :
    wrapProp c1Prop c1Line = c1Fixed ∧ c1Fixed ≠ c1Line ∧
      wrapProp c1Prop c1Fixed = c1Fixed := by
  decide

/-- C2 counterexample: the escape-insertion transform is not idempotent.
On the line `a.name.name` with property `name`, one application yields
`(a as any).name.name` and a second application changes that output again
(to `(a as any).(name as any).name`). -/
theorem c2_wrap_not_idempotent_cex :
    wrapProp c1Prop c2Line = "(a as any).name.name".toList ∧
      wrapProp c1Prop (wrapProp c1Prop c2Line) ≠ wrapProp c1Prop c2Line := by
  decide

/-- C3: no-op safety.  If the transform of the handled diagnostic leaves
its target line unchanged, the content written back is byte-identical to
the loaded content, both for fix-unused-vars.py (which calls `write_text`
unconditionally, line 43, but then writes `'\n'.join(content.split('\n'))`,
the identity) and for fix-ts-errors.py (whose line 51 guard suppresses the
write). -/
theorem c3_noop_write_identity (path content : List Char) (ln : Nat)
    (v o w : List Char)
    (h1 : subUnused v ((splitNl content).getD (ln - 1) []) =
      (splitNl content).getD (ln - 1) [])
    (h2 : subRename o w ((splitNl content).getD (ln - 1) []) =
      (splitNl content).getD (ln - 1) []) :
    processUnusedFile content [(ln, v)] = content ∧
      (processTsFile true path content [(ln, o, w)]).1 = content := by
  constructor
  · show joinNl (applyAtLines (splitNl content) [(ln, subUnused v)]) = content
    show joinNl (applyAtLines (editAt (splitNl content) ln (subUnused v)) []) = content
    rw [show applyAtLines (editAt (splitNl content) ln (subUnused v)) [] =
      editAt (splitNl content) ln (subUnused v) from rfl]
    rw [editAt_noop _ _ _ h1, joinNl_splitNl]
  · have hlines : applyTsIssues (splitNl content) [(ln, o, w)] = splitNl content := by
      show applyAtLines (splitNl content) [(ln, subRename o w)] = splitNl content
      show editAt (splitNl content) ln (subRename o w) = splitNl content
      exact editAt_noop _ _ _ h2
    show (processTsFile true path content [(ln, o, w)]).1 = content
    unfold processTsFile
    rw [if_pos rfl]
    simp only [hlines, joinNl_splitNl]
    rw [if_neg (by simp)]

/-- C3 witness: a diagnostic for variable `zz` on line 1 of `ab\ncd` is a
no-op, and handling it leaves the content unchanged in both scripts. -/
theorem c3_noop_write_identity_witness :
    (subUnused ( "zz".toList) ((splitNl ( "ab\ncd".toList)).getD 0 []) =
        (splitNl ( "ab\ncd".toList)).getD 0 []) ∧
      processUnusedFile ( "ab\ncd".toList) [(1, "zz".toList)] = "ab\ncd".toList ∧
        (processTsFile true ( "f.ts".toList) ( "ab\ncd".toList)
          [(1, "zz".toList, "_zz".toList)]).1 = "ab\ncd".toList := by
  refine ⟨by decide, ?_, ?_⟩
  · exact (c3_noop_write_identity ( "f.ts".toList) ( "ab\ncd".toList) 1
      ( "zz".toList) ( "zz".toList) ( "_zz".toList) (by decide) (by decide)).1
  · exact (c3_noop_write_identity ( "f.ts".toList) ( "ab\ncd".toList) 1
      ( "zz".toList) ( "zz".toList) ( "_zz".toList) (by decide) (by decide)).2

/-- C5 counterexample: two diagnostics targeting the same line (fully
overlapping line ranges) are BOTH applied by the sequential apply loop of
fix-batch-7.py lines 46-49.  On `logger._error(error)` the first change
(`logger._error` to `logger.error`) and the second (`error` to `_error`)
both take effect, so the result differs from applying either single edit
alone and from the original — no edit is rejected and no conflict exists
in the code. -/
theorem c5_overlap_cex :
    applyReplaceChanges [c5Line] [c5Change1, c5Change2] =
        [ "logger._error(_error)".toList] ∧
      applyReplaceChanges [c5Line] [c5Change1, c5Change2] ≠
        applyReplaceChanges [c5Line] [c5Change1] ∧
      applyReplaceChanges [c5Line] [c5Change1, c5Change2] ≠
        applyReplaceChanges [c5Line] [c5Change2] ∧
      applyReplaceChanges [c5Line] [c5Change1, c5Change2] ≠ [c5Line] := by
  decide

/-- C5 amended: when two collected changes target the same (in-range) line,
the apply loop applies both sequentially — the second `str.replace` runs on
the output of the first — and reports no conflict; the final line is the
composition of the two replacements. -/
theorem c5_sequential_edits (lines : List (List Char)) (ln : Nat)
    (o1 n1 o2 n2 : List Char) (h1 : 1 ≤ ln) (h2 : ln - 1 < lines.length) :
    applyReplaceChanges lines [(ln, o1, n1), (ln, o2, n2)] =
      lines.set (ln - 1)
        (strReplaceW o2 n2 (strReplaceW o1 n1 (lines.getD (ln - 1) []))) := by
  show editAt (editAt lines ln (strReplaceW o1 n1)) ln (strReplaceW o2 n2) = _
  have e1 : editAt lines ln (strReplaceW o1 n1) =
      lines.set (ln - 1) (strReplaceW o1 n1 (lines.getD (ln - 1) [])) := by
    unfold editAt
    rw [if_pos ⟨h1, h2⟩]
  rw [e1]
  unfold editAt
  rw [if_pos ⟨h1, by rw [List.length_set]; exact h2⟩]
  rw [getD_set_self _ _ _ _ h2, set_set_same]

/-- C5 witness: the counterexample data is in range, and the composed
result is what the amended claim states. -/
theorem c5_sequential_edits_witness :
    (1 ≤ 1 ∧ 0 < ([c5Line] : List (List Char)).length) ∧
      applyReplaceChanges [c5Line] [c5Change1, c5Change2] =
        ([c5Line].set 0
          (strReplaceW ( "error".toList) ( "_error".toList)
            (strReplaceW ( "logger._error".toList) ( "logger.error".toList)
              (([c5Line] : List (List Char)).getD 0 [])))) := by
  exact ⟨⟨le_refl 1, by decide⟩,
    c5_sequential_edits [c5Line] 1 ( "logger._error".toList)
      ( "logger.error".toList) ( "error".toList) ( "_error".toList)
      (le_refl 1) (by decide)⟩

/-- C6 counterexample: fix-ts-errors.py performs no checksum re-check
before its commit (lines 50-52).  With loaded content `const a = 1`,
rewritten content `const _a = 1`, and on-disk content externally changed to
`// rewritten externally`, the commit writes the rewritten content and the
external modification is lost — the batch is not rejected and the external
write is not preserved. -/
theorem c6_checksum_cex :
    c6Disk ≠ c6Loaded ∧ commitTsWrite c6Loaded c6New c6Disk = c6New ∧
      commitTsWrite c6Loaded c6New c6Disk ≠ c6Disk := by
  decide

/-- C6 amended: the commit of fix-ts-errors.py compares the rewritten
content only against the content loaded at pass start; whenever they
differ it writes unconditionally, replacing whatever is on disk (losing any
external modification made during the pass), and only when the transform
changed nothing is the on-disk content left alone. -/
theorem c6_unguarded_commit (content newC disk : List Char) :
    (newC ≠ content → commitTsWrite content newC disk = newC) ∧
      (newC = content → commitTsWrite content newC disk = disk) := by
  constructor
  · intro h
    unfold commitTsWrite
    rw [if_pos h]
  · intro h
    unfold commitTsWrite
    rw [if_neg (by simp [h])]

/-- C6 witness: the commit overwrites the externally modified disk content
when the transform changed the file, and leaves the disk alone when it did
not. -/
theorem c6_unguarded_commit_witness :
    commitTsWrite c6Loaded c6New c6Disk = c6New ∧
      commitTsWrite c6Loaded c6Loaded c6Disk = c6Disk := by
  exact ⟨(c6_unguarded_commit c6Loaded c6New c6Disk).1 (by decide),
    (c6_unguarded_commit c6Loaded c6Loaded c6Disk).2 rfl⟩

/-- C7 counterexample: a diagnostic for line 500 of a 2-line file is
handled by fix-ts-errors.py with no edit and no failure, but nothing at
all is recorded for it: the run's summary output for the file is empty
(no `✅` line, no stale note of any kind), contradicting the claim that the
diagnostic is recorded as stale in the summary. -/
theorem c7_stale_silent_cex :
    processTsFile true c7Path c7Content [(500, "x".toList, "y".toList)] =
      (c7Content, []) := by
  decide

/-- C7 amended: a diagnostic whose file does not exist, or whose line
number is outside 1..lineCount, produces no edit, does not fail the run,
and leaves the on-disk content unchanged — but it is silently skipped
(`continue` at fix-ts-errors.py line 38, the bounds test at line 46):
no stale entry is recorded in the summary. -/
theorem c7_stale_dropped (path content : List Char)
    (issues : List (Nat × List Char × List Char))
    (h : ∀ t ∈ issues, t.1 = 0 ∨ (splitNl content).length < t.1) :
    processTsFile true path content issues = (content, []) ∧
      processTsFile false path content issues = (content, []) := by
  refine ⟨?_, rfl⟩
  have hlines : applyTsIssues (splitNl content) issues = splitNl content := by
    apply applyAtLines_oob
    intro d hd
    obtain ⟨t, ht, he⟩ := List.mem_map.mp hd
    have hh := h t ht
    have hd1 : d.1 = t.1 := by rw [← he]
    rw [hd1]
    exact hh
  unfold processTsFile
  rw [if_pos rfl]
  simp only [hlines, joinNl_splitNl]
  rw [if_neg (by simp)]

/-- C7 witness: the line-500 diagnostic against the 2-line file is out of
range, and the run returns the content unchanged with an empty summary. -/
theorem c7_stale_dropped_witness :
    (∀ t ∈ ([(500, "x".toList, "y".toList)] :
        List (Nat × List Char × List Char)),
      t.1 = 0 ∨ (splitNl c7Content).length < t.1) ∧
      processTsFile true c7Path c7Content [(500, "x".toList, "y".toList)] =
        (c7Content, []) := by
  exact ⟨by decide,
    (c7_stale_dropped c7Path c7Content [(500, "x".toList, "y".toList)]
      (by decide)).1⟩

/-! C8: the bounded lookahead of fix-parentheses.py. -/

theorem scanWinF_length (pred : List Char → Bool) (ed : List Char → List Char) :
    ∀ f (lines : List (List Char)) j stop,
      (scanWinF pred ed f lines j stop).length = lines.length := by
  intro f
  induction f with
  | zero => intro lines j stop; rfl
  | succ f ih =>
    intro lines j stop
    simp only [scanWinF]
    split
    · split
      · exact List.length_set lines _ _
      · exact ih lines (j + 1) stop
    · rfl

theorem scanWinF_frame (pred : List Char → Bool) (ed : List Char → List Char) :
    ∀ f (lines : List (List Char)) j stop k, k < j ∨ stop ≤ k →
      (scanWinF pred ed f lines j stop).getD k [] = lines.getD k [] := by
  intro f
  induction f with
  | zero => intro lines j stop k _; rfl
  | succ f ih =>
    intro lines j stop k hk
    simp only [scanWinF]
    split
    next hc =>
      split
      · exact set_getD_ne lines j k _ [] (by omega)
      · exact ih lines (j + 1) stop k (by omega)
    · rfl

theorem scanWinF_none (pred : List Char → Bool) (ed : List Char → List Char) :
    ∀ f (lines : List (List Char)) j stop,
      (∀ j2, j ≤ j2 → j2 < lines.length → j2 < stop →
        pred (lines.getD j2 []) = false) →
      scanWinF pred ed f lines j stop = lines := by
  intro f
  induction f with
  | zero => intro lines j stop _; rfl
  | succ f ih =>
    intro lines j stop h
    simp only [scanWinF]
    split
    next hc =>
      rw [if_neg (by rw [h j (le_refl j) hc.1 hc.2]; simp)]
      exact ih lines (j + 1) stop (fun j2 h1 h2 h3 => h j2 (by omega) h2 h3)
    · rfl

/-- C8: the lookahead of fix-parentheses.py lines 27-37 is confined to the
hard-capped window `i+1 <= j < i+20` (at most 20 lines beyond the trigger
line `i`): every line at an index outside that window is unchanged and the
line count is preserved; and the rule fails closed — if no line in the
window has stripped text ending in the `;` marker, no edit at all is made. -/
theorem c8_lookahead_window (lines : List (List Char)) (i k : Nat)
    (hk : k ≤ i ∨ i + 20 ≤ k) :
    (fixParenLookahead lines i).length = lines.length ∧
      (fixParenLookahead lines i).getD k [] = lines.getD k [] ∧
      ((∀ j, i + 1 ≤ j → j < lines.length → j < i + 20 →
          stripEndsSemi (lines.getD j []) = false) →
        fixParenLookahead lines i = lines) := by
  refine ⟨scanWinF_length _ _ _ lines (i + 1) (i + 20), ?_, ?_⟩
  · exact scanWinF_frame _ _ _ lines (i + 1) (i + 20) k (by omega)
  · intro h
    exact scanWinF_none _ _ _ lines (i + 1) (i + 20)
      (fun j2 h1 h2 h3 => h j2 h1 h2 h3)

/-- C8 witness: a 3-line file with no semicolon-terminated line in the
window: the lookahead changes nothing, and out-of-window lines are
untouched. -/
theorem c8_lookahead_window_witness :
    (21 ≤ 0 ∨ 0 + 20 ≤ 21) ∧
      ((fixParenLookahead [ "await x".toList, ".from(t)".toList,
          ".select()".toList] 0).length =
        ([ "await x".toList, ".from(t)".toList, ".select()".toList] :
          List (List Char)).length ∧
      (fixParenLookahead [ "await x".toList, ".from(t)".toList,
          ".select()".toList] 0).getD 21 [] =
        ([ "await x".toList, ".from(t)".toList, ".select()".toList] :
          List (List Char)).getD 21 [] ∧
      ((∀ j, 0 + 1 ≤ j → j < ([ "await x".toList, ".from(t)".toList,
            ".select()".toList] : List (List Char)).length → j < 0 + 20 →
          stripEndsSemi (([ "await x".toList, ".from(t)".toList,
            ".select()".toList] : List (List Char)).getD j []) = false) →
        fixParenLookahead [ "await x".toList, ".from(t)".toList,
          ".select()".toList] 0 =
          [ "await x".toList, ".from(t)".toList, ".select()".toList])) := by
  exact ⟨Or.inr (by omega),
    c8_lookahead_window [ "await x".toList, ".from(t)".toList,
      ".select()".toList] 0 21 (Or.inr (by omega))⟩

/-- C9 (implicit frame property): the single-line token-substitution loop
(fix-ts-errors.py lines 44-48; the same `editAt` loop underlies
fix-all-property-access.py lines 37-45) never changes the number of lines
of the file, and every line whose 1-based number is not the reported line
of some diagnostic for the file keeps exactly its original text. -/
theorem c9_frame_untouched_lines (lines : List (List Char))
    (issues : List (Nat × List Char × List Char)) (k : Nat)
    (h : ∀ t ∈ issues, t.1 ≠ k + 1) :
    (applyTsIssues lines issues).length = lines.length ∧
      (applyTsIssues lines issues).getD k [] = lines.getD k [] := by
  constructor
  · exact applyAtLines_length _ lines
  · apply applyAtLines_getD_ne
    intro d hd
    obtain ⟨t, ht, he⟩ := List.mem_map.mp hd
    have hd1 : d.1 = t.1 := by rw [← he]
    rw [hd1]
    exact h t ht

/-- C9 witness: a rename on line 2 of a 3-line file leaves line 1 (index 0)
untouched and preserves the line count. -/
theorem c9_frame_untouched_lines_witness :
    (∀ t ∈ ([(2, "err".toList, "_err".toList)] :
        List (Nat × List Char × List Char)), t.1 ≠ 0 + 1) ∧
      ((applyTsIssues [ "const err = 1;".toList, "use(err);".toList,
          "done();".toList] [(2, "err".toList, "_err".toList)]).length =
        ([ "const err = 1;".toList, "use(err);".toList, "done();".toList] :
          List (List Char)).length ∧
      (applyTsIssues [ "const err = 1;".toList, "use(err);".toList,
          "done();".toList] [(2, "err".toList, "_err".toList)]).getD 0 [] =
        ([ "const err = 1;".toList, "use(err);".toList, "done();".toList] :
          List (List Char)).getD 0 []) := by
  exact ⟨by decide,
    c9_frame_untouched_lines [ "const err = 1;".toList, "use(err);".toList,
      "done();".toList] [(2, "err".toList, "_err".toList)] 0 (by decide)⟩

/-! C10: idempotence of the underscore-prefix substitution.  The key
facts: scanning with a word-character to the left (`pw = true`) can never
start a match of a word-character token, so the scan copies word runs; and
the scan output agrees with its input on the head character, so a failed
match stays failed when the tail has been rewritten. -/

theorem matchTok_true_none {v0 : Char} (v' : List Char)
    (hw : isWordChar v0 = true) (nc : Bool) (s : List Char) :
    matchTok (v0 :: v') nc true s = none := by
  simp [matchTok, hw]

theorem matchTok_some_cond {v0 : Char} {v' : List Char} {nc pw : Bool}
    {s r : List Char} (h : matchTok (v0 :: v') nc pw s = some r) :
    (pw != isWordChar v0) = true ∧ pfx (v0 :: v') s = true ∧
      bdryAfter (v0 :: v') (s.drop (v0 :: v').length) = true ∧
      (!nc || colonOk (s.drop (v0 :: v').length)) = true ∧
      r = s.drop (v0 :: v').length := by
  simp only [matchTok] at h
  split at h
  next hc =>
    simp only [Bool.and_eq_true] at hc
    exact ⟨hc.1.1.1, hc.1.1.2, hc.1.2, hc.2, (Option.some.inj h).symm⟩
  next => exact absurd h (by simp)

theorem matchTok_none_iff (v0 : Char) (v' : List Char) (nc pw : Bool)
    (s : List Char) :
    matchTok (v0 :: v') nc pw s = none ↔
      ((pw != isWordChar v0) && pfx (v0 :: v') s
        && bdryAfter (v0 :: v') (s.drop (v0 :: v').length)
        && (!nc || colonOk (s.drop (v0 :: v').length))) = false := by
  simp only [matchTok]
  split
  next hc =>
    constructor
    · intro h; exact absurd h (by simp)
    · intro hf; rw [hf] at hc; exact absurd hc (by simp)
  next hc => exact ⟨fun _ => Bool.eq_false_iff.mpr hc, fun _ => rfl⟩

theorem wordOfLast_of_all (l : List Char) (h : ∀ c ∈ l, isWordChar c = true)
    (h0 : l ≠ []) : wordOfLast l = true := by
  induction l with
  | nil => exact absurd rfl h0
  | cons a t ih =>
    cases t with
    | nil => simpa [wordOfLast] using h a (List.mem_cons_self a [])
    | cons b u =>
      have : wordOfLast (a :: b :: u) = wordOfLast (b :: u) := by
        simp [wordOfLast, List.getLast?_cons_cons]
      rw [this]
      exact ih (fun c hc => h c (List.mem_cons_of_mem a hc)) (by simp)

theorem subScanW_true_copy {v0 : Char} (v' new : List Char) (nc : Bool)
    (hw : isWordChar v0 = true) (c : Char) (t : List Char) :
    subScanW (v0 :: v') new nc true (c :: t) =
      c :: subScanW (v0 :: v') new nc (isWordChar c) t :=
  subScanW_none (matchTok_true_none v' hw nc (c :: t))

theorem subScanW_run_copy {v0 : Char} (v' new : List Char) (nc : Bool)
    (hw : isWordChar v0 = true) (u : List Char)
    (hu : ∀ c ∈ u, isWordChar c = true) :
    ∀ t, subScanW (v0 :: v') new nc true (u ++ t) =
      u ++ subScanW (v0 :: v') new nc true t := by
  induction u with
  | nil => intro t; rfl
  | cons a u' ih =>
    intro t
    rw [List.cons_append, subScanW_true_copy v' new nc hw,
      hu a (List.mem_cons_self a u'),
      ih (fun c hc => hu c (List.mem_cons_of_mem a hc))]
    rfl

theorem pfx_through_scan {v0 : Char} (v' new : List Char) (nc : Bool)
    (hw : isWordChar v0 = true) (u : List Char)
    (hu : ∀ c ∈ u, isWordChar c = true) :
    ∀ X, pfx u (subScanW (v0 :: v') new nc true X) = true →
      pfx u X = true ∧
        subScanW (v0 :: v') new nc true X =
          u ++ subScanW (v0 :: v') new nc true (X.drop u.length) := by
  induction u with
  | nil => intro X _; exact ⟨rfl, by simp⟩
  | cons a u' ih =>
    intro X h
    cases X with
    | nil =>
      rw [subScanW_nil] at h
      simp [pfx] at h
    | cons d X' =>
      rw [subScanW_true_copy v' new nc hw] at h
      obtain ⟨had, h2⟩ := pfx_cons h
      have hwd : isWordChar d = true := by
        rw [← had]; exact hu a (List.mem_cons_self a u')
      rw [hwd] at h2
      obtain ⟨hp', hS⟩ := ih (fun c hc => hu c (List.mem_cons_of_mem a hc)) X' h2
      refine ⟨by simp [pfx, had, hp'], ?_⟩
      rw [subScanW_true_copy v' new nc hw, hwd, hS, had]
      simp [List.drop_succ_cons]

theorem scan_true_wordOfHead {v0 : Char} (v' new : List Char) (nc : Bool)
    (hw : isWordChar v0 = true) (X : List Char) :
    wordOfHead (subScanW (v0 :: v') new nc true X) = wordOfHead X := by
  cases X with
  | nil => rfl
  | cons d X' => rw [subScanW_true_copy v' new nc hw]; rfl

theorem scan_true_colonOk {v0 : Char} (v' new : List Char) (nc : Bool)
    (hw : isWordChar v0 = true) (X : List Char) :
    colonOk (subScanW (v0 :: v') new nc true X) = colonOk X := by
  cases X with
  | nil => rfl
  | cons d X' => rw [subScanW_true_copy v' new nc hw]; rfl

theorem matchTok_transfer {v0 : Char} {v' : List Char}
    (hv : ∀ c ∈ v0 :: v', isWordChar c = true) (new : List Char)
    {nc pw : Bool} {c : Char} {rest : List Char}
    (h : matchTok (v0 :: v') nc pw (c :: rest) = none) :
    matchTok (v0 :: v') nc pw
      (c :: subScanW (v0 :: v') new nc (isWordChar c) rest) = none := by
  have hw0 : isWordChar v0 = true := hv v0 (List.mem_cons_self v0 v')
  have hv' : ∀ c2 ∈ v', isWordChar c2 = true :=
    fun c2 hc => hv c2 (List.mem_cons_of_mem v0 hc)
  cases hm : matchTok (v0 :: v') nc pw
      (c :: subScanW (v0 :: v') new nc (isWordChar c) rest) with
  | none => rfl
  | some r =>
    exfalso
    obtain ⟨h1, h2, h3, h4, -⟩ := matchTok_some_cond hm
    obtain ⟨hc0, h2'⟩ := pfx_cons h2
    have hwc : isWordChar c = true := by rw [← hc0]; exact hw0
    rw [hwc] at h2' h3 h4
    obtain ⟨hpf2, hS⟩ := pfx_through_scan v' new nc hw0 v' hv' rest h2'
    have hdrop : (c :: subScanW (v0 :: v') new nc true rest).drop
        (v0 :: v').length = subScanW (v0 :: v') new nc true (rest.drop v'.length) := by
      rw [List.length_cons, List.drop_succ_cons, hS, List.drop_left]
    rw [hdrop] at h3 h4
    have h3' : bdryAfter (v0 :: v') ((c :: rest).drop (v0 :: v').length) = true := by
      rw [List.length_cons, List.drop_succ_cons]
      unfold bdryAfter
      unfold bdryAfter at h3
      rw [scan_true_wordOfHead v' new nc hw0] at h3
      exact h3
    have h4' : (!nc || colonOk ((c :: rest).drop (v0 :: v').length)) = true := by
      rw [List.length_cons, List.drop_succ_cons]
      rw [scan_true_colonOk v' new nc hw0] at h4
      exact h4
    have hcond : ((pw != isWordChar v0) && pfx (v0 :: v') (c :: rest)
        && bdryAfter (v0 :: v') ((c :: rest).drop (v0 :: v').length)
        && (!nc || colonOk ((c :: rest).drop (v0 :: v').length))) = true := by
      rw [h1, h3', h4']
      simp [pfx, hc0, hpf2]
    rw [matchTok_none_iff] at h
    rw [h] at hcond
    exact absurd hcond (by simp)

theorem matchTok_repl_none {v0 : Char} {v' : List Char}
    (hv : ∀ c ∈ v0 :: v', isWordChar c = true) (nc : Bool) (X : List Char) :
    matchTok (v0 :: v') nc false ( '_' :: ((v0 :: v') ++ X)) = none := by
  rw [matchTok_none_iff]
  obtain ⟨d, hd, he⟩ := drop_pred_cons (v0 :: v') (by simp) X
  have hdrop : ( '_' :: ((v0 :: v') ++ X)).drop (v0 :: v').length = d :: X := by
    rw [List.length_cons, List.drop_succ_cons]
    have h1 : (v0 :: v').length - 1 = v'.length := by simp
    rw [← h1]
    exact he
  have hb : bdryAfter (v0 :: v')
      (( '_' :: ((v0 :: v') ++ X)).drop (v0 :: v').length) = false := by
    rw [hdrop]
    unfold bdryAfter
    rw [show wordOfHead (d :: X) = isWordChar d from rfl,
      wordOfLast_of_all (v0 :: v') hv (by simp), hv d hd]
    rfl
  rw [hb]
  simp

theorem subUnused_idem_aux {v0 : Char} {v' : List Char}
    (hv : ∀ c ∈ v0 :: v', isWordChar c = true) :
    ∀ n (s : List Char) pw, s.length ≤ n →
      subScanW (v0 :: v') ( '_' :: (v0 :: v')) false pw
          (subScanW (v0 :: v') ( '_' :: (v0 :: v')) false pw s) =
        subScanW (v0 :: v') ( '_' :: (v0 :: v')) false pw s := by
  have hw0 : isWordChar v0 = true := hv v0 (List.mem_cons_self v0 v')
  intro n
  induction n with
  | zero =>
    intro s pw h
    have : s = [] := List.eq_nil_of_length_eq_zero (Nat.le_zero.mp h)
    subst this
    rfl
  | succ n ih =>
    intro s pw h
    cases s with
    | nil => rfl
    | cons c rest =>
      cases hm : matchTok (v0 :: v') false pw (c :: rest) with
      | none =>
        rw [subScanW_none hm,
          subScanW_none (matchTok_transfer hv ( '_' :: (v0 :: v')) hm)]
        simp only [List.length_cons] at h
        rw [ih rest (isWordChar c) (by omega)]
      | some r =>
        obtain ⟨h1, -, -, -, hr⟩ := matchTok_some_cond hm
        have hpw : pw = false := by
          cases hb : pw
          · rfl
          · rw [hb, hw0] at h1; simp at h1
        subst hpw
        rw [subScanW_some hm, wordOfLast_of_all (v0 :: v') hv (by simp)]
        have hlen : r.length ≤ n := by
          have := matchTok_some_lt hm
          simp only [List.length_cons] at h this
          omega
        rw [show ( '_' :: (v0 :: v')) ++
            subScanW (v0 :: v') ( '_' :: (v0 :: v')) false true r =
            '_' :: ((v0 :: v') ++
              subScanW (v0 :: v') ( '_' :: (v0 :: v')) false true r) from rfl]
        rw [subScanW_none (matchTok_repl_none hv false _)]
        rw [show isWordChar '_' = true from rfl]
        rw [subScanW_run_copy v' ( '_' :: (v0 :: v')) false hw0 (v0 :: v') hv]
        rw [ih r true hlen]

/-- C10 (implicit): the underscore-prefix transform of fix-unused-vars.py
is idempotent.  Because `_` is itself a word character, every occurrence
rewritten to `_v` loses its leading word boundary, so re-applying
`re.sub(rf'\b{var}\b', f'_{var}', ...)` to the output of the same
substitution matches nothing and returns it unchanged; no occurrence ever
becomes `__v`. -/
theorem c10_underscore_idempotent (v line : List Char)
    (hv : ∀ c ∈ v, isWordChar c = true) (h0 : v ≠ []) :
    subUnused v (subUnused v line) = subUnused v line := by
  cases v with
  | nil => exact absurd rfl h0
  | cons v0 v' =>
    have hfix : subUnused (v0 :: v') (subUnused (v0 :: v') line) =
        subScanW (v0 :: v') ( '_' :: (v0 :: v')) false false
          (subScanW (v0 :: v') ( '_' :: (v0 :: v')) false false line) := rfl
    rw [hfix]
    exact subUnused_idem_aux hv line.length line false (le_refl _)

/-- C10 witness: prefixing `error` on a concrete line is idempotent. -/
theorem c10_underscore_idempotent_witness :
    ((∀ c ∈ ( "error".toList), isWordChar c = true) ∧ "error".toList ≠ []) ∧
      subUnused ( "error".toList)
          (subUnused ( "error".toList) ( "  send(error);".toList)) =
        subUnused ( "error".toList) ( "  send(error);".toList) := by
  exact ⟨⟨by decide, by decide⟩,
    c10_underscore_idempotent ( "error".toList) ( "  send(error);".toList)
      (by decide) (by decide)⟩

/-! C4: the guards of the token-substitution regex
`\b{old}\b(?!:)` of fix-ts-errors-comprehensive.py / fix-all-refs.py. -/

theorem dropAppendLe (l r : List Char) : ∀ n, n ≤ l.length →
    (l ++ r).drop n = l.drop n ++ r := by
  induction l with
  | nil =>
    intro n h
    have : n = 0 := Nat.le_zero.mp (by simpa using h)
    subst this
    rfl
  | cons a t ih =>
    intro n h
    cases n with
    | zero => rfl
    | succ n =>
      simp only [List.cons_append, List.drop_succ_cons]
      exact ih n (by simpa using h)

theorem subScanW_pw_irrel {v0 : Char} (v' new : List Char) (nc : Bool)
    (hw0 : isWordChar v0 = true) (t : List Char) (ht : wordOfHead t = false)
    (pw1 pw2 : Bool) :
    subScanW (v0 :: v') new nc pw1 t = subScanW (v0 :: v') new nc pw2 t := by
  cases t with
  | nil => rfl
  | cons d t' =>
    have hd : isWordChar d = false := ht
    have hne : v0 ≠ d := by
      intro he
      rw [he] at hw0
      rw [hw0] at hd
      exact absurd hd (by simp)
    have hp : pfx (v0 :: v') (d :: t') = false := by
      simp [pfx, hne]
    have hm : ∀ pw, matchTok (v0 :: v') nc pw (d :: t') = none := by
      intro pw
      rw [matchTok_none_iff, hp]
      simp
    rw [subScanW_none (hm pw1), subScanW_none (hm pw2)]

/-- C4: the token substitution `re.sub(rf'\b{old}\b(?!:)', new, line)`
only rewrites whole-word occurrences of the token that are not in
object-key position, and leaves everything else in place.  Concretely, for
a word token `v`: (1) an occurrence followed by a colon (a key position)
is copied unchanged and scanning continues after it; (2) a longer word `u`
that merely contains the token (the occurrence fails the word-boundary
guard) is copied unchanged; (3) a whole-word occurrence not followed by a
colon is replaced.  `t` is the rest of the line, starting with a non-word,
non-colon character (or empty). -/
theorem c4_token_guard (v new u t : List Char)
    (hv : ∀ c ∈ v, isWordChar c = true) (hv0 : v ≠ [])
    (hu : ∀ c ∈ u, isWordChar c = true) (hu0 : u ≠ []) (hne : u ≠ v)
    (ht : wordOfHead t = false) (hcol : colonOk t = true) :
    subRenameNC v new (v ++ ':' :: t) = v ++ ':' :: subRenameNC v new t ∧
      subRenameNC v new (u ++ t) = u ++ subRenameNC v new t ∧
      subRenameNC v new (v ++ t) = new ++ subRenameNC v new t := by
  cases v with
  | nil => exact absurd rfl hv0
  | cons v0 v' =>
  cases u with
  | nil => exact absurd rfl hu0
  | cons u0 u' =>
  have hw0 : isWordChar v0 = true := hv v0 (List.mem_cons_self v0 v')
  have hv' : ∀ c ∈ v', isWordChar c = true :=
    fun c hc => hv c (List.mem_cons_of_mem v0 hc)
  have hwu0 : isWordChar u0 = true := hu u0 (List.mem_cons_self u0 u')
  have hu' : ∀ c ∈ u', isWordChar c = true :=
    fun c hc => hu c (List.mem_cons_of_mem u0 hc)
  have hwlast : wordOfLast (v0 :: v') = true := wordOfLast_of_all _ hv (by simp)
  refine ⟨?_, ?_, ?_⟩
  · -- key position: the colon lookahead vetoes the match
    have hm0 : matchTok (v0 :: v') true false ((v0 :: v') ++ ':' :: t) = none := by
      rw [matchTok_none_iff, List.drop_left]
      have : colonOk (':' :: t) = false := by simp [colonOk]
      rw [this]
      simp
    have hm : matchTok (v0 :: v') true false (v0 :: (v' ++ ':' :: t)) = none := hm0
    unfold subRenameNC
    rw [show (v0 :: v') ++ ':' :: t = v0 :: (v' ++ ':' :: t) from rfl,
      subScanW_none hm, hw0,
      subScanW_run_copy v' new true hw0 v' hv',
      subScanW_true_copy v' new true hw0,
      show isWordChar ':' = false from rfl]
    rfl
  · -- an occurrence inside a longer word is protected by the boundary
    have hm0 : matchTok (v0 :: v') true false ((u0 :: u') ++ t) = none := by
      rw [matchTok_none_iff]
      cases hp : pfx (v0 :: v') ((u0 :: u') ++ t) with
      | false => simp
      | true =>
        rcases pfx_or_of_append hp with hvu | huv
        · by_cases hlen : (v0 :: v').length = (u0 :: u').length
          · exact absurd (pfx_eq_of_length hvu hlen).symm hne
          · have hlt : (v0 :: v').length < (u0 :: u').length :=
              lt_of_le_of_ne (pfx_length hvu) hlen
            have hdr : ((u0 :: u') ++ t).drop (v0 :: v').length =
                (u0 :: u').drop (v0 :: v').length ++ t :=
              dropAppendLe _ _ _ (le_of_lt hlt)
            rcases hud : (u0 :: u').drop (v0 :: v').length with _ | ⟨d, w⟩
            · exfalso
              have hlen2 := List.length_drop (v0 :: v').length (u0 :: u')
              rw [hud] at hlen2
              simp only [List.length_nil, List.length_cons] at hlen2 hlt
              omega
            · have hdmem : d ∈ u0 :: u' :=
                List.drop_subset _ _ (hud ▸ List.mem_cons_self d w)
              have hb : bdryAfter (v0 :: v')
                  (((u0 :: u') ++ t).drop (v0 :: v').length) = false := by
                rw [hdr, hud]
                unfold bdryAfter
                rw [show wordOfHead (d :: w ++ t) = isWordChar d from rfl,
                  hwlast, hu d hdmem]
                rfl
              rw [hb]
              simp
        · by_cases hlen : (u0 :: u').length = (v0 :: v').length
          · exact absurd (pfx_eq_of_length huv hlen) hne
          · have hlt : (u0 :: u').length < (v0 :: v').length :=
              lt_of_le_of_ne (pfx_length huv) hlen
            have hdt := pfx_drop_of_append hp huv
            rcases hvd : (v0 :: v').drop (u0 :: u').length with _ | ⟨e, Y⟩
            · exfalso
              have hlen2 := List.length_drop (u0 :: u').length (v0 :: v')
              rw [hvd] at hlen2
              simp only [List.length_nil, List.length_cons] at hlen2 hlt
              omega
            · exfalso
              rw [hvd] at hdt
              cases t with
              | nil => simp [pfx] at hdt
              | cons d t' =>
                obtain ⟨hed, -⟩ := pfx_cons hdt
                have hemem : e ∈ v0 :: v' :=
                  List.drop_subset _ _ (hvd ▸ List.mem_cons_self e Y)
                have : isWordChar e = true := hv e hemem
                rw [hed] at this
                have hd : isWordChar d = false := ht
                rw [this] at hd
                exact absurd hd (by simp)
    have hm : matchTok (v0 :: v') true false (u0 :: (u' ++ t)) = none := hm0
    unfold subRenameNC
    rw [show (u0 :: u') ++ t = u0 :: (u' ++ t) from rfl,
      subScanW_none hm, hwu0,
      subScanW_run_copy v' new true hw0 u' hu']
    rw [subScanW_pw_irrel v' new true hw0 t ht true false]
    rfl
  · -- a whole-word occurrence not in key position is rewritten
    have hb : bdryAfter (v0 :: v') t = true := by
      unfold bdryAfter
      rw [hwlast, ht]
      rfl
    have hm : matchTok (v0 :: v') true false ((v0 :: v') ++ t) = some t := by
      simp only [matchTok]
      rw [List.drop_left, if_pos]
      rw [hw0, pfx_append_self, hb, hcol]
      rfl
    unfold subRenameNC
    rw [subScanW_some hm, hwlast,
      subScanW_pw_irrel v' new true hw0 t ht true false]

/-- C4 witness: with token `req`, replacement `_req`, the longer word
`request`, and tail `();`: the key position `req:`, the embedded
occurrence in `request`, and the plain occurrence `req();` behave as the
claim states. -/
theorem c4_token_guard_witness :
    subRenameNC ( "req".toList) ( "_req".toList)
        ( "req".toList ++ ':' :: "();".toList) =
      "req".toList ++ ':' :: subRenameNC ( "req".toList) ( "_req".toList)
        ( "();".toList) ∧
    subRenameNC ( "req".toList) ( "_req".toList)
        ( "request".toList ++ "();".toList) =
      "request".toList ++ subRenameNC ( "req".toList) ( "_req".toList)
        ( "();".toList) ∧
    subRenameNC ( "req".toList) ( "_req".toList)
        ( "req".toList ++ "();".toList) =
      "_req".toList ++ subRenameNC ( "req".toList) ( "_req".toList)
        ( "();".toList) := by
  exact c4_token_guard ( "req".toList) ( "_req".toList) ( "request".toList)
    ( "();".toList) (by decide) (by decide) (by decide) (by decide)
    (by decide) (by decide) (by decide)

/-! C2: behaviour of the property-access rewrite on already-wrapped
occurrences. -/

theorem twAppAll (P : Char → Bool) (l r : List Char)
    (h : ∀ c ∈ l, P c = true) : (l ++ r).takeWhile P = l ++ r.takeWhile P := by
  induction l with
  | nil => rfl
  | cons a t ih =>
    simp only [List.cons_append, List.takeWhile_cons,
      h a (List.mem_cons_self a t), ite_true, if_pos]
    rw [ih (fun c hc => h c (List.mem_cons_of_mem a hc))]

theorem dwAppAll (P : Char → Bool) (l r : List Char)
    (h : ∀ c ∈ l, P c = true) : (l ++ r).dropWhile P = r.dropWhile P := by
  induction l with
  | nil => rfl
  | cons a t ih =>
    simp only [List.cons_append, List.dropWhile_cons,
      h a (List.mem_cons_self a t), ite_true, if_pos]
    exact ih (fun c hc => h c (List.mem_cons_of_mem a hc))

theorem dwHeadFalse (P : Char → Bool) (t : List Char)
    (h : ∀ c ∈ t.take 1, P c = false) : t.dropWhile P = t := by
  cases t with
  | nil => rfl
  | cons d t' =>
    have : P d = false := h d (by simp)
    simp [List.dropWhile_cons, this]

theorem word_not_space {c : Char} (h : isWordChar c = true) : pySpace c = false := by
  cases hs : pySpace c with
  | false => rfl
  | true =>
    exfalso
    unfold pySpace at hs
    have hp := of_decide_eq_true hs
    rcases hp with h1 | h1 | h1 | h1 | h1 | h1 <;> subst h1 <;>
      exact absurd h (by decide)

theorem wrapScanW_nil (p : List Char) (pw : Bool) : wrapScanW p pw [] = [] := rfl

theorem wrapScanW_none {p : List Char} {pw : Bool} {c : Char} {rest : List Char}
    (h : wrapMatch p pw (c :: rest) = none) :
    wrapScanW p pw (c :: rest) = c :: wrapScanW p (isWordChar c) rest :=
  wrapW_none h

theorem wrapScanW_some {p : List Char} {pw : Bool} {s id r5 : List Char}
    (h : wrapMatch p pw s = some (id, r5)) :
    wrapScanW p pw s =
      '(' :: (id ++ asAnyDot ++ p ++ wrapScanW p (wordOfLast p) r5) :=
  wrapW_some h

theorem wrapMatch_pw_true (p : List Char) (s : List Char) :
    wrapMatch p true s = none := by
  cases s with
  | nil => rfl
  | cons c rest => simp [wrapMatch]

theorem wrapMatch_noident {p : List Char} {pw : Bool} {c : Char}
    {rest : List Char} (h : identStart c = false) :
    wrapMatch p pw (c :: rest) = none := by
  simp [wrapMatch, h]

theorem wrapMatch_run_none (p : List Char) (u0 : Char) (u' t : List Char)
    (hu : ∀ c ∈ u0 :: u', isWordChar c = true) (ht : wordOfHead t = false)
    (hdot : ∀ r3, t.dropWhile pySpace ≠ '.' :: r3) :
    wrapMatch p false (u0 :: (u' ++ t)) = none := by
  have hu' : ∀ c ∈ u', isWordChar c = true :=
    fun c hc => hu c (List.mem_cons_of_mem u0 hc)
  cases hid : identStart u0 with
  | false => simp [wrapMatch, hid]
  | true =>
    have hscrut : ((u' ++ t).dropWhile isWordChar).dropWhile pySpace =
        t.dropWhile pySpace := by
      rw [dwAppAll _ _ _ hu', dwHeadFalse isWordChar t]
      intro c hc
      cases t with
      | nil => simp at hc
      | cons d t' =>
        simp only [List.take, List.mem_singleton] at hc
        rw [hc]
        exact ht
    simp only [wrapMatch, hid]
    rw [if_neg (by simp)]
    rcases hdw : t.dropWhile pySpace with _ | ⟨c2, r3⟩
    · rw [hscrut, hdw]
    · have hne : c2 ≠ '.' := fun he => hdot r3 (by rw [hdw, he])
      rw [hscrut, hdw]
      simp [hne]

theorem wrapScanW_run_true (p : List Char) (u : List Char)
    (hu : ∀ c ∈ u, isWordChar c = true) :
    ∀ t, wrapScanW p true (u ++ t) = u ++ wrapScanW p true t := by
  induction u with
  | nil => intro t; rfl
  | cons a u' ih =>
    intro t
    rw [List.cons_append, wrapScanW_none (wrapMatch_pw_true p _),
      hu a (List.mem_cons_self a u'),
      ih (fun c hc => hu c (List.mem_cons_of_mem a hc))]
    rfl

theorem wrapScanW_run_from_false (p : List Char) (u t : List Char)
    (hu : ∀ c ∈ u, isWordChar c = true) (hu0 : u ≠ [])
    (ht : wordOfHead t = false)
    (hdot : ∀ r3, t.dropWhile pySpace ≠ '.' :: r3) :
    wrapScanW p false (u ++ t) = u ++ wrapScanW p true t := by
  cases u with
  | nil => exact absurd rfl hu0
  | cons u0 u' =>
    have hu' : ∀ c ∈ u', isWordChar c = true :=
      fun c hc => hu c (List.mem_cons_of_mem u0 hc)
    rw [List.cons_append,
      wrapScanW_none (wrapMatch_run_none p u0 u' t hu ht hdot),
      hu u0 (List.mem_cons_self u0 u'), wrapScanW_run_true p u' hu']
    rfl

theorem wrapScanW_allword (p : List Char)
    (hp : ∀ c ∈ p, isWordChar c = true) (hp0 : p ≠ []) :
    wrapScanW p false p = p := by
  have h := wrapScanW_run_from_false p p [] hp hp0 (by rfl)
    (fun r3 hcon => by simp at hcon)
  rw [show wrapScanW p true ([] : List Char) = [] from rfl] at h
  simp only [List.append_nil] at h
  exact h

theorem wrapScanW_tail_fix (p : List Char)
    (hp : ∀ c ∈ p, isWordChar c = true) (hp0 : p ≠ []) :
    wrapScanW p true (asAnyDot ++ p) = asAnyDot ++ p := by
  have ha : asAnyDot ++ p =
      ' ' :: 'a' :: 's' :: ' ' :: 'a' :: 'n' :: 'y' :: ')' :: '.' :: p := rfl
  have e1 : wrapScanW p true
      ( ' ' :: 'a' :: 's' :: ' ' :: 'a' :: 'n' :: 'y' :: ')' :: '.' :: p) =
      ' ' :: wrapScanW p false
        ( 'a' :: 's' :: ' ' :: 'a' :: 'n' :: 'y' :: ')' :: '.' :: p) := by
    rw [wrapScanW_none (wrapMatch_pw_true p _)]
    rfl
  have e2 : wrapScanW p false
      ( 'a' :: 's' :: ' ' :: 'a' :: 'n' :: 'y' :: ')' :: '.' :: p) =
      'a' :: 's' :: wrapScanW p true
        ( ' ' :: 'a' :: 'n' :: 'y' :: ')' :: '.' :: p) := by
    have h := wrapScanW_run_from_false p ( 'a' :: 's' :: [])
      ( ' ' :: 'a' :: 'n' :: 'y' :: ')' :: '.' :: p) (by decide) (by decide)
      (by rfl) ?_
    · simpa using h
    · intro r3 hcon
      rw [show ( ' ' :: 'a' :: 'n' :: 'y' :: ')' :: '.' :: p).dropWhile pySpace =
        'a' :: 'n' :: 'y' :: ')' :: '.' :: p from rfl] at hcon
      injection hcon with h1 h2
      exact absurd h1 (by decide)
  have e3 : wrapScanW p true ( ' ' :: 'a' :: 'n' :: 'y' :: ')' :: '.' :: p) =
      ' ' :: wrapScanW p false ( 'a' :: 'n' :: 'y' :: ')' :: '.' :: p) := by
    rw [wrapScanW_none (wrapMatch_pw_true p _)]
    rfl
  have e4 : wrapScanW p false ( 'a' :: 'n' :: 'y' :: ')' :: '.' :: p) =
      'a' :: 'n' :: 'y' :: wrapScanW p true ( ')' :: '.' :: p) := by
    have h := wrapScanW_run_from_false p ( 'a' :: 'n' :: 'y' :: [])
      ( ')' :: '.' :: p) (by decide) (by decide) (by rfl) ?_
    · simpa using h
    · intro r3 hcon
      rw [show ( ')' :: '.' :: p).dropWhile pySpace = ')' :: '.' :: p
        from rfl] at hcon
      injection hcon with h1 h2
      exact absurd h1 (by decide)
  have e5 : wrapScanW p true ( ')' :: '.' :: p) =
      ')' :: wrapScanW p false ( '.' :: p) := by
    rw [wrapScanW_none (wrapMatch_pw_true p _)]
    rfl
  have e6 : wrapScanW p false ( '.' :: p) = '.' :: wrapScanW p false p := by
    rw [wrapScanW_none (wrapMatch_noident (by decide))]
    rfl
  rw [ha, e1, e2, e3, e4, e5, e6, wrapScanW_allword p hp hp0]

/-- C2 amended: an already-wrapped occurrence is never wrapped a second
time.  For any identifier `x` and property `p` (non-empty word strings,
`x` starting with an identifier character), one firing of the
property-access rewrite turns the access `x.p` into `(x as any).p`, and the
wrapped line `(x as any).p` is a fixed point of the rewrite: re-applying
the transform leaves it unchanged (`changed` is false).  (Idempotence on
arbitrary lines fails — see the counterexample — because a property name
occurring twice in a chain can act as the identifier of a fresh match on
the second run.) -/
theorem c2_wrapped_fixed_point (x0 : Char) (xt p : List Char)
    (hxi : identStart x0 = true)
    (hx : ∀ c ∈ x0 :: xt, isWordChar c = true)
    (hp : ∀ c ∈ p, isWordChar c = true) (hp0 : p ≠ []) :
    wrapProp p ((x0 :: xt) ++ '.' :: p) = wrappedLine (x0 :: xt) p ∧
      wrapProp p (wrappedLine (x0 :: xt) p) = wrappedLine (x0 :: xt) p := by
  have hxt : ∀ c ∈ xt, isWordChar c = true :=
    fun c hc => hx c (List.mem_cons_of_mem x0 hc)
  constructor
  · have hscrut : ((xt ++ '.' :: p).dropWhile isWordChar).dropWhile pySpace =
        '.' :: p := by
      rw [dwAppAll _ _ _ hxt]
      rfl
    have htake : (xt ++ '.' :: p).takeWhile isWordChar = xt := by
      rw [twAppAll _ _ _ hxt,
        show ( '.' :: p).takeWhile isWordChar = [] from rfl]
      simp
    have hpdw : p.dropWhile pySpace = p := by
      cases p with
      | nil => rfl
      | cons p0 pt =>
        simp [List.dropWhile_cons,
          word_not_space (hp p0 (List.mem_cons_self p0 pt))]
    have hbd : bdryAfter p ((p.dropWhile pySpace).drop p.length) = true := by
      rw [hpdw, List.drop_length]
      unfold bdryAfter
      rw [wordOfLast_of_all p hp hp0]
      rfl
    have hm : wrapMatch p false ((x0 :: xt) ++ '.' :: p) =
        some (x0 :: xt, []) := by
      rw [show (x0 :: xt) ++ '.' :: p = x0 :: (xt ++ '.' :: p) from rfl]
      simp only [wrapMatch, hxi]
      rw [if_neg (by simp)]
      rw [hscrut]
      simp only [if_pos rfl, hpdw, pfx_refl, List.drop_length, htake]
      rw [hpdw, List.drop_length] at hbd
      rw [show bdryAfter p ([] : List Char) = true from hbd]
      simp
    rw [show wrapProp p ((x0 :: xt) ++ '.' :: p) =
      wrapScanW p false ((x0 :: xt) ++ '.' :: p) from rfl]
    rw [wrapScanW_some hm,
      show wrapScanW p (wordOfLast p) [] = [] from rfl]
    unfold wrappedLine
    simp [List.append_assoc]
  · rw [show wrapProp p (wrappedLine (x0 :: xt) p) =
      wrapScanW p false ( '(' :: ((x0 :: xt) ++ (asAnyDot ++ p))) from rfl]
    rw [wrapScanW_none (wrapMatch_noident (by decide)),
      show isWordChar '(' = false from rfl]
    have hdot1 : ∀ r3, (asAnyDot ++ p).dropWhile pySpace ≠ '.' :: r3 := by
      intro r3 hcon
      rw [show (asAnyDot ++ p).dropWhile pySpace =
        'a' :: 's' :: ' ' :: 'a' :: 'n' :: 'y' :: ')' :: '.' :: p
        from rfl] at hcon
      injection hcon with h1 h2
      exact absurd h1 (by decide)
    rw [wrapScanW_run_from_false p (x0 :: xt) (asAnyDot ++ p) hx (by simp)
      (by rfl) hdot1]
    rw [wrapScanW_tail_fix p hp hp0]
    rfl

/-- C2 witness for the amended claim: with identifier `user` and property
`name`, `user.name` is rewritten to `(user as any).name`, and that wrapped
line is a fixed point of the transform. -/
theorem c2_wrapped_fixed_point_witness :
    wrapProp ( "name".toList) ( "user.name".toList) =
        wrappedLine ( "user".toList) ( "name".toList) ∧
      wrapProp ( "name".toList) (wrappedLine ( "user".toList) ( "name".toList)) =
        wrappedLine ( "user".toList) ( "name".toList) := by
  exact c2_wrapped_fixed_point 'u' ( "ser".toList) ( "name".toList)
    (by decide) (by decide) (by decide) (by decide)
